import Mathlib

/-!
Verification of the SlowDrip miner receipt core.

This file gives a shallow embedding, in Lean 4, of the receipt lifecycle of
the `slowdrip-miner` repository: the canonical receipt digest
(`internal/receipts/signer.go`: `digest`, `putU64`, `putI64`), the session
signer (`NewSessionSigner`, `Close`, `Sign`, `Verify`), the Merkle batcher
(`MerkleLeaf`, `MerkleRoot`, `merkleize`, `AggregateAnchor`) and the QoS
aggregator (`internal/service/agent.go`: `Agent`, `Agent.add`, `AddReceipt`).

Modelling conventions:
* Byte strings are `List Nat`; every byte the encoders produce is `< 256`.
* Go machine integers are `Nat`/`Int` with explicit reductions `% 2^w`
  where the source converts or overflows (`uint16(len)`, `uint64(v)`,
  `int64` counter increments).
* SHA-256 itself is external library code (`crypto/sha256`), so hashing is
  modelled by an explicit function parameter `sha : HashFn`; the incremental
  hasher writes (`h.Write`) are modelled by accumulating the written bytes,
  which is exactly the semantics of `sha256.New`/`Write`/`Sum`.
* `crypto/ed25519` is likewise external; signing and verifying are explicit
  function parameters, and theorems that need the signature scheme to be
  correct take that correctness as a hypothesis.
* Go `nil` slices and `nil` pointers are modelled with `Option`.
-/

namespace SlowDrip

/-- Byte strings: lists of naturals, each entry a byte value. -/
abbrev Bytes := List Nat

/-- An abstract 32-byte hash function, standing for SHA-256. -/
abbrev HashFn := Bytes → Bytes

/-- `putU64` from `internal/receipts/signer.go`: writes the eight big-endian
bytes of `v`; each byte is `byte(v >> k)`, i.e. `(v >>> k) % 256`. -/
def putU64 (v : Nat) : Bytes :=
  [v >>> 56 % 256, v >>> 48 % 256, v >>> 40 % 256, v >>> 32 % 256,
   v >>> 24 % 256, v >>> 16 % 256, v >>> 8 % 256, v % 256]

/-- Go's `uint64(v)` applied to an `int64`: the two's-complement
reinterpretation of `v` as an unsigned 64-bit value. -/
def toU64 (v : Int) : Nat := (v % 18446744073709551616).toNat

/-- `putI64` from the source: `putU64(b, uint64(v))`. -/
def putI64 (v : Int) : Bytes := putU64 (toU64 v)

/-- `binary.BigEndian.PutUint16(lb[:], uint16(n))` from `digest`: the two
big-endian bytes of `uint16(n)`, where the Go conversion truncates `n`
modulo `2^16`. -/
def putU16 (n : Nat) : Bytes := [n % 65536 / 256, n % 256]

/-- The domain separation tag constant from the source. -/
def DomainTag : String := "SlowDrip:PoS-Receipt:v1"

/-- The ASCII bytes of `DomainTag` (all characters are ASCII). -/
def domainTagBytes : Bytes := DomainTag.data.map Char.toNat

/-- `ReceiptVersion` constant from the source (`uint8`, currently 1). -/
def ReceiptVersion : Nat := 1

/-- The `Receipt` struct from `internal/receipts/signer.go`. `Version` is a
`uint8`, `Seq` and `Nonce` are `uint64`, `Size`, `Deadline` and `Recv` are
`int64` (the times as UnixNano), `Commit` is a fixed `[32]byte`, and
`PubKey`/`Sig` are byte slices (`nil` is modelled as `[]`). -/
structure Receipt where
  Version : Nat
  Path : Bytes
  Seq : Nat
  Size : Int
  Deadline : Int
  Recv : Int
  Commit : Bytes
  Nonce : Nat
  PubKey : Bytes
  Sig : Bytes
deriving DecidableEq

/-- Well-formedness of a `Receipt`: exactly the ranges the Go struct types
impose (`uint8`, `uint64`, `int64`, `[32]byte`). -/
def Receipt.WF (r : Receipt) : Prop :=
  r.Version < 256 ∧ r.Seq < 18446744073709551616 ∧
  -9223372036854775808 ≤ r.Size ∧ r.Size < 9223372036854775808 ∧
  -9223372036854775808 ≤ r.Deadline ∧ r.Deadline < 9223372036854775808 ∧
  -9223372036854775808 ≤ r.Recv ∧ r.Recv < 9223372036854775808 ∧
  r.Commit.length = 32 ∧ r.Nonce < 18446744073709551616

instance (r : Receipt) : Decidable r.WF := by
  unfold Receipt.WF; infer_instance

/-- The byte string fed to the SHA-256 hasher by `digest`, written in the
source's order of `h.Write` calls: domain tag, version byte, length-prefixed
path, seq, size, deadline, recv, commit, nonce. -/
def digestBytes (r : Receipt) : Bytes :=
  let h0 : Bytes := []
  let h1 := h0 ++ domainTagBytes
  let h2 := h1 ++ [r.Version]
  let pathBytes := r.Path
  let h3 := h2 ++ putU16 pathBytes.length
  let h4 := h3 ++ pathBytes
  let h5 := h4 ++ putU64 r.Seq
  let h6 := h5 ++ putI64 r.Size
  let h7 := h6 ++ putI64 r.Deadline
  let h8 := h7 ++ putI64 r.Recv
  let h9 := h8 ++ r.Commit
  let h10 := h9 ++ putU64 r.Nonce
  h10

/-- `digest` from the source: the hash of the accumulated writes. -/
def digest (sha : HashFn) (r : Receipt) : Bytes := sha (digestBytes r)

/-- Modelled from the spec (§4.2): the digest preimage as one concatenation,
in the order the specification lists the fields — domain tag, version byte,
16-bit big-endian path length, path bytes, u64 seq, i64 size, i64 deadline,
i64 recv, 32-byte commit, u64 nonce. Used to compare the source's
write-by-write accumulation against the specified flat layout. -/
def digestLayoutSpec (r : Receipt) : Bytes :=
  domainTagBytes ++ [r.Version] ++ putU16 r.Path.length ++ r.Path ++
  putU64 r.Seq ++ putI64 r.Size ++ putI64 r.Deadline ++ putI64 r.Recv ++
  r.Commit ++ putU64 r.Nonce

theorem digestBytes_eq_layout (r : Receipt) : digestBytes r = digestLayoutSpec r := by
  simp [digestBytes, digestLayoutSpec, List.append_assoc]

theorem putU64_length (v : Nat) : (putU64 v).length = 8 := rfl

theorem putI64_length (v : Int) : (putI64 v).length = 8 := rfl

theorem putU16_length (n : Nat) : (putU16 n).length = 2 := rfl

theorem domainTagBytes_length : domainTagBytes.length = 23 := by decide

theorem putU64_inj {v w : Nat} (hv : v < 18446744073709551616)
    (hw : w < 18446744073709551616) (h : putU64 v = putU64 w) : v = w := by
  simp only [putU64, Nat.shiftRight_eq_div_pow, List.cons.injEq, and_true] at h
  norm_num at h
  omega

theorem toU64_lt (v : Int) : toU64 v < 18446744073709551616 := by
  unfold toU64; omega

theorem putI64_inj {v w : Int}
    (hv1 : -9223372036854775808 ≤ v) (hv2 : v < 9223372036854775808)
    (hw1 : -9223372036854775808 ≤ w) (hw2 : w < 9223372036854775808)
    (h : putI64 v = putI64 w) : v = w := by
  have hu := putU64_inj (toU64_lt v) (toU64_lt w) h
  unfold toU64 at hu
  omega

/-- A handy concrete hash function for witnesses: constant all-zero output. -/
def shaZ : HashFn := fun _ => List.replicate 32 0

/-- A concrete receipt used in witnesses. -/
def rA : Receipt :=
  { Version := 1, Path := [97], Seq := 2, Size := 1000, Deadline := 5, Recv := 5,
    Commit := List.replicate 32 7, Nonce := 3, PubKey := [], Sig := [] }

/-- A second concrete receipt used in witnesses. -/
def rB : Receipt :=
  { Version := 1, Path := [98], Seq := 1, Size := 4, Deadline := 9, Recv := 10,
    Commit := List.replicate 32 8, Nonce := 4, PubKey := [], Sig := [] }

/-- Claim C1: `digest(receipt)` is a deterministic 32-byte value equal to the
hash of exactly the specified concatenation (domain tag, version byte,
16-bit big-endian path length then path bytes, u64-BE seq, i64-BE size,
i64-BE deadline and recv, the 32-byte commitment verbatim, u64-BE nonce);
identical field values always produce the identical digest (the digest does
not depend on `PubKey`/`Sig`). -/
theorem digest_canonical_layout_C1 (sha : HashFn)
    (hsha : ∀ l, (sha l).length = 32) (r r2 : Receipt)
    (hfields : r.Version = r2.Version ∧ r.Path = r2.Path ∧ r.Seq = r2.Seq ∧
      r.Size = r2.Size ∧ r.Deadline = r2.Deadline ∧ r.Recv = r2.Recv ∧
      r.Commit = r2.Commit ∧ r.Nonce = r2.Nonce) :
    digest sha r = sha (digestLayoutSpec r) ∧ (digest sha r).length = 32 ∧
      digest sha r = digest sha r2 := by
  obtain ⟨h1, h2, h3, h4, h5, h6, h7, h8⟩ := hfields
  refine ⟨by rw [digest, digestBytes_eq_layout], hsha _, ?_⟩
  unfold digest digestBytes
  rw [h1, h2, h3, h4, h5, h6, h7, h8]

theorem digest_canonical_layout_C1_witness :
    (∀ l, (shaZ l).length = 32) ∧
      (rA.Version = rA.Version ∧ rA.Path = rA.Path ∧ rA.Seq = rA.Seq ∧
        rA.Size = rA.Size ∧ rA.Deadline = rA.Deadline ∧ rA.Recv = rA.Recv ∧
        rA.Commit = rA.Commit ∧ rA.Nonce = rA.Nonce) ∧
      (digest shaZ rA = shaZ (digestLayoutSpec rA) ∧
        (digest shaZ rA).length = 32 ∧ digest shaZ rA = digest shaZ rA) :=
  ⟨fun l => by simp [shaZ], ⟨rfl, rfl, rfl, rfl, rfl, rfl, rfl, rfl⟩,
    digest_canonical_layout_C1 shaZ (fun l => by simp [shaZ]) rA rA
      ⟨rfl, rfl, rfl, rfl, rfl, rfl, rfl, rfl⟩⟩

/-- Claim C5: the digest preimage encoding is unambiguous — for well-formed
receipts (fields within their Go types' ranges, 32-byte commitment), equal
preimage byte strings force equal field tuples
(version, path, seq, size, deadline, recv, commit, nonce). -/
theorem digest_preimage_injective_C5 (r1 r2 : Receipt)
    (h1 : r1.WF) (h2 : r2.WF) (h : digestBytes r1 = digestBytes r2) :
    r1.Version = r2.Version ∧ r1.Path = r2.Path ∧ r1.Seq = r2.Seq ∧
    r1.Size = r2.Size ∧ r1.Deadline = r2.Deadline ∧ r1.Recv = r2.Recv ∧
    r1.Commit = r2.Commit ∧ r1.Nonce = r2.Nonce := by
  obtain ⟨hv1, hs1, hsz1a, hsz1b, hd1a, hd1b, hr1a, hr1b, hc1, hn1⟩ := h1
  obtain ⟨hv2, hs2, hsz2a, hsz2b, hd2a, hd2b, hr2a, hr2b, hc2, hn2⟩ := h2
  rw [digestBytes_eq_layout, digestBytes_eq_layout] at h
  -- the two preimages have equal length, so the paths have equal length
  have hlen : r1.Path.length = r2.Path.length := by
    have := congrArg List.length h
    simp only [digestLayoutSpec, List.length_append, domainTagBytes_length,
      putU16_length, putU64_length, putI64_length, List.length_singleton,
      hc1, hc2] at this
    omega
  unfold digestLayoutSpec at h
  simp only [List.append_assoc, List.singleton_append] at h
  -- peel the domain tag
  have h := List.append_cancel_left h
  -- peel the version byte and the two length-prefix bytes
  simp only [putU16, List.cons_append, List.nil_append, List.cons.injEq] at h
  obtain ⟨hver, -, -, h⟩ := h
  -- peel the path bytes
  obtain ⟨hpath, h⟩ := List.append_inj h hlen
  -- peel seq
  obtain ⟨hseq, h⟩ := List.append_inj h (by rw [putU64_length, putU64_length])
  -- peel size
  obtain ⟨hsize, h⟩ := List.append_inj h (by rw [putI64_length, putI64_length])
  -- peel deadline
  obtain ⟨hdl, h⟩ := List.append_inj h (by rw [putI64_length, putI64_length])
  -- peel recv
  obtain ⟨hrecv, h⟩ := List.append_inj h (by rw [putI64_length, putI64_length])
  -- peel commit; the remainder is the nonce
  obtain ⟨hcom, hnon⟩ := List.append_inj h (by rw [hc1, hc2])
  exact ⟨hver, hpath, putU64_inj hs1 hs2 hseq,
    putI64_inj hsz1a hsz1b hsz2a hsz2b hsize,
    putI64_inj hd1a hd1b hd2a hd2b hdl,
    putI64_inj hr1a hr1b hr2a hr2b hrecv,
    hcom, putU64_inj hn1 hn2 hnon⟩

theorem digest_preimage_injective_C5_witness :
    rA.WF ∧ rA.WF ∧ digestBytes rA = digestBytes rA ∧
      (rA.Version = rA.Version ∧ rA.Path = rA.Path ∧ rA.Seq = rA.Seq ∧
        rA.Size = rA.Size ∧ rA.Deadline = rA.Deadline ∧ rA.Recv = rA.Recv ∧
        rA.Commit = rA.Commit ∧ rA.Nonce = rA.Nonce) :=
  ⟨by decide, by decide, rfl, digest_preimage_injective_C5 rA rA (by decide) (by decide) rfl⟩

/-- The `SessionSigner` struct: `priv` and `pub` are ed25519 key byte
slices (a Go `nil` slice is modelled as `none`); `sessionID` is advisory
(logging only) and `started` is the creation time in UnixNano. -/
structure SessionSigner where
  priv : Option Bytes
  pub : Option Bytes
  sessionID : String
  started : Int

/-- An abstract ed25519 signing function (`ed25519.Sign`): private key and
message to signature. -/
abbrev SignFn := Bytes → Bytes → Bytes

/-- An abstract ed25519 verification function (`ed25519.Verify`): public
key, message and signature to a boolean. -/
abbrev VerifyFn := Bytes → Bytes → Bytes → Bool

/-- `NewSessionSigner` from the source, with the freshly generated keypair
and the current time passed in explicitly: key generation draws entropy
from the environment and is external to this core, and its only failure
mode (entropy exhaustion) produces no signer at all. -/
def NewSessionSigner (sessionID : String) (now : Int) (pub priv : Bytes) :
    SessionSigner :=
  { priv := some priv, pub := some pub, sessionID := sessionID, started := now }

/-- `Close` from the source: zeroes every byte of the private key slice in
place. Note that it leaves the slice allocated (non-`nil`). -/
def SessionSigner.Close (s : SessionSigner) : SessionSigner :=
  { s with priv := s.priv.map (fun l => l.map (fun _ => 0)) }

/-- `Sign` from the source, on a possibly-`nil` receiver. It first computes
the digest of the receipt as given, then fills `PubKey` and `Sig`; the
in-place mutation is modelled by returning the updated receipt. -/
def SessionSigner.Sign (edSign : SignFn) (sha : HashFn)
    (s : Option SessionSigner) (r : Receipt) : Except String Receipt :=
  match s with
  | none => .error "signer not initialized"
  | some s =>
    match s.priv, s.pub with
    | some priv, some pub =>
      let d := digest sha r
      .ok { r with PubKey := pub, Sig := edSign priv d }
    | _, _ => .error "signer not initialized"

/-- `Verify` from the source: checks the fixed ed25519 key and signature
lengths (32 and 64), then verifies the signature over the digest. -/
def Verify (edVerify : VerifyFn) (sha : HashFn) (r : Receipt) :
    Except String Unit :=
  if r.PubKey.length ≠ 32 then .error "invalid pubkey length"
  else if r.Sig.length ≠ 64 then .error "invalid signature length"
  else if edVerify r.PubKey (digest sha r) r.Sig then .ok ()
  else .error "bad signature"

theorem digest_ignores_pubkey_sig (sha : HashFn) (r : Receipt) (p s : Bytes) :
    digest sha { r with PubKey := p, Sig := s } = digest sha r := rfl

/-- Concrete signing function for witnesses: constant 64-byte output. -/
def edSign0 : SignFn := fun _ _ => List.replicate 64 9

/-- Concrete verification function for witnesses: accepts everything. -/
def edVerify0 : VerifyFn := fun _ _ _ => true

/-- Concrete 32-byte public key for witnesses. -/
def pub0 : Bytes := List.replicate 32 5

/-- Concrete 64-byte private key for witnesses. -/
def priv0 : Bytes := List.replicate 64 6

/-- The receipt `rA` as signed by the witness signer. -/
def rSA : Receipt := { rA with PubKey := pub0, Sig := List.replicate 64 9 }

/-- Claim C2: for a signer freshly created by `NewSessionSigner` (and hence
not closed), if `Sign` returns without error then `Verify` of the signed
receipt succeeds. The behaviour of the external ed25519 primitives —
32-byte public keys, 64-byte signatures, and verification accepting
genuine signatures — is taken as hypotheses. -/
theorem sign_verify_roundtrip_C2 (edSign : SignFn) (edVerify : VerifyFn)
    (sha : HashFn) (sid : String) (now : Int) (pub priv : Bytes)
    (r rS : Receipt)
    (hpub : pub.length = 32)
    (hsiglen : ∀ m, (edSign priv m).length = 64)
    (hcorrect : ∀ m, edVerify pub m (edSign priv m) = true)
    (hsign : SessionSigner.Sign edSign sha
      (some (NewSessionSigner sid now pub priv)) r = Except.ok rS) :
    Verify edVerify sha rS = Except.ok () := by
  unfold SessionSigner.Sign NewSessionSigner at hsign
  simp only [Except.ok.injEq] at hsign
  rw [← hsign]
  unfold Verify
  simp [digest_ignores_pubkey_sig, hpub, hsiglen, hcorrect]

theorem sign_verify_roundtrip_C2_witness :
    pub0.length = 32 ∧ (∀ m, (edSign0 priv0 m).length = 64) ∧
      (∀ m, edVerify0 pub0 m (edSign0 priv0 m) = true) ∧
      SessionSigner.Sign edSign0 shaZ
        (some (NewSessionSigner "s" 0 pub0 priv0)) rA = Except.ok rSA ∧
      Verify edVerify0 shaZ rSA = Except.ok () :=
  ⟨by decide, fun m => by simp [edSign0], fun m => rfl, rfl,
    sign_verify_roundtrip_C2 edSign0 edVerify0 shaZ "s" 0 pub0 priv0 rA rSA
      (by decide) (fun m => by simp [edSign0]) (fun m => rfl) rfl⟩

/-- Counterexample to claim C4: on a signer created by `NewSessionSigner`
and then closed, `Sign` does not fail — it returns a signed receipt,
because `Close` zeroes the private key bytes in place but leaves the slice
non-`nil`, so the `s.priv == nil` guard never fires. -/
theorem sign_after_close_counterexample_C4 :
    SessionSigner.Sign edSign0 shaZ
        (some ((NewSessionSigner "s" 0 pub0 priv0).Close)) rA =
      Except.ok rSA ∧
      ∀ e : String, (Except.ok rSA : Except String Receipt) ≠ Except.error e :=
  ⟨rfl, fun _ h => Except.noConfusion h⟩

/-- Claim C4 (amended): `Sign` fails with the "signer not initialized"
error on a `nil` receiver (and likewise when `priv` or `pub` is `nil`, as
in a zero-value signer); but after `Close()` on a signer whose keys are
present, `Sign` still succeeds, because `Close` only zeroes the key bytes
in place and leaves the slice non-`nil`. -/
theorem sign_after_close_C4_amended (edSign : SignFn) (sha : HashFn)
    (s : SessionSigner) (r : Receipt)
    (hpriv : s.priv.isSome) (hpub : s.pub.isSome) :
    (∀ r2 : Receipt, SessionSigner.Sign edSign sha none r2 =
      Except.error "signer not initialized") ∧
    ∃ rS, SessionSigner.Sign edSign sha (some s.Close) r = Except.ok rS := by
  refine ⟨fun r2 => rfl, ?_⟩
  obtain ⟨p, hp⟩ := Option.isSome_iff_exists.mp hpriv
  obtain ⟨q, hq⟩ := Option.isSome_iff_exists.mp hpub
  refine ⟨({ r with
      PubKey := q,
      Sig := edSign (p.map (fun _ => 0)) (digest sha r) } : Receipt), ?_⟩
  unfold SessionSigner.Sign SessionSigner.Close
  rw [hp, hq]
  rfl

theorem sign_after_close_C4_amended_witness :
    (NewSessionSigner "s" 0 pub0 priv0).priv.isSome ∧
      (NewSessionSigner "s" 0 pub0 priv0).pub.isSome ∧
      ((∀ r2 : Receipt, SessionSigner.Sign edSign0 shaZ none r2 =
          Except.error "signer not initialized") ∧
        ∃ rS, SessionSigner.Sign edSign0 shaZ
          (some (NewSessionSigner "s" 0 pub0 priv0).Close) rA = Except.ok rS) :=
  ⟨rfl, rfl,
    sign_after_close_C4_amended edSign0 shaZ (NewSessionSigner "s" 0 pub0 priv0)
      rA rfl rfl⟩

/-- The ASCII bytes of the Merkle leaf domain tag `"leaf"`. -/
def leafTagBytes : Bytes := "leaf".data.map Char.toNat

/-- `MerkleLeaf` from the source: `H("leaf" || digest(r))`. -/
def MerkleLeaf (sha : HashFn) (r : Receipt) : Bytes :=
  sha (leafTagBytes ++ digest sha r)

/-- One pass of the pairing loop in `merkleize`: hash adjacent nodes
left-to-right. The source only runs this loop on an even number of nodes. -/
def pairUp (sha : HashFn) : List Bytes → List Bytes
  | a :: b :: rest => sha (a ++ b) :: pairUp sha rest
  | _ => []

theorem pairUp_length (sha : HashFn) :
    ∀ l : List Bytes, (pairUp sha l).length = l.length / 2
  | [] => rfl
  | [_] => by simp [pairUp]
  | _ :: _ :: rest => by
    simp only [pairUp, List.length_cons, pairUp_length sha rest]
    omega

/-- The odd-count padding step of `merkleize`: duplicate the last node
(Bitcoin-style) so the level has an even number of nodes. -/
def padEven (l : List Bytes) : List Bytes :=
  if l.length % 2 = 1 then l ++ [l.getLastD []] else l

theorem padEven_length_le (l : List Bytes) : (padEven l).length ≤ l.length + 1 := by
  unfold padEven
  split <;> simp

/-- `merkleize` from the source: pad to an even count, hash adjacent pairs,
recurse until one node remains. The source never calls it on an empty list
(`MerkleRoot` guards `len(receipts) == 0`); for totality the Lean model
returns the zero hash there. -/
def merkleize (sha : HashFn) (nodes : List Bytes) : Bytes :=
  match nodes with
  | [] => List.replicate 32 0
  | [n] => n
  | a :: b :: rest => merkleize sha (pairUp sha (padEven (a :: b :: rest)))
termination_by nodes.length
decreasing_by
  simp only [pairUp_length, List.length_cons]
  have h := padEven_length_le (a :: b :: rest)
  simp only [List.length_cons] at h
  omega

/-- `MerkleRoot` from the source: zero hash on empty input, otherwise the
merkleization of the leaf hashes in input order. -/
def MerkleRoot (sha : HashFn) (receipts : List Receipt) : Bytes :=
  if receipts.length = 0 then List.replicate 32 0
  else merkleize sha (receipts.map (MerkleLeaf sha))

/-- One lowercase hex digit, as produced by Go's `encoding/hex`. -/
def hexDigit (n : Nat) : Char :=
  if n < 10 then Char.ofNat (48 + n) else Char.ofNat (87 + n)

/-- `hex.EncodeToString`: two lowercase hex digits per byte. -/
def hexEncode (l : Bytes) : String :=
  String.mk ((l.map (fun b => [hexDigit (b / 16), hexDigit (b % 16)])).flatten)

/-- Go string `<` on UTF-8 bytes: lexicographic byte order, a strict prefix
being smaller. -/
def bytesLt : Bytes → Bytes → Bool
  | [], [] => false
  | [], _ :: _ => true
  | _ :: _, [] => false
  | a :: x, b :: y => decide (a < b) || (decide (a = b) && bytesLt x y)

theorem bytesLt_irrefl : ∀ l : Bytes, bytesLt l l = false
  | [] => rfl
  | a :: l => by simp [bytesLt, bytesLt_irrefl l]

theorem bytesLt_conn : ∀ {x y : Bytes},
    bytesLt x y = false → bytesLt y x = false → x = y
  | [], [], _, _ => rfl
  | [], _ :: _, h, _ => by simp [bytesLt] at h
  | _ :: _, [], _, h2 => by simp [bytesLt] at h2
  | a :: x, b :: y, h, h2 => by
    simp only [bytesLt, Bool.or_eq_false_iff, Bool.and_eq_false_iff,
      decide_eq_false_iff_not] at h h2
    have hab : a = b := by omega
    subst hab
    have hx : bytesLt x y = false := by
      rcases h.2 with h' | h'
      · simp at h'
      · exact h'
    have hy : bytesLt y x = false := by
      rcases h2.2 with h' | h'
      · simp at h'
      · exact h'
    rw [bytesLt_conn hx hy]

theorem bytesLt_trans : ∀ {x y z : Bytes},
    bytesLt x y = true → bytesLt y z = true → bytesLt x z = true
  | [], _ :: _, _ :: _, _, _ => rfl
  | [], [], _, h1, _ => by simp [bytesLt] at h1
  | [], _ :: _, [], _, h2 => by simp [bytesLt] at h2
  | _ :: _, [], _, h1, _ => by simp [bytesLt] at h1
  | _ :: _, _ :: _, [], _, h2 => by simp [bytesLt] at h2
  | a :: x, b :: y, c :: z, h1, h2 => by
    simp only [bytesLt, Bool.or_eq_true, Bool.and_eq_true, decide_eq_true_eq] at h1 h2 ⊢
    rcases h1 with h1 | ⟨hab, h1⟩
    · rcases h2 with h2 | ⟨hbc, h2⟩
      · left; omega
      · left; omega
    · rcases h2 with h2 | ⟨hbc, h2⟩
      · left; omega
      · right; exact ⟨by omega, bytesLt_trans h1 h2⟩

/-- The comparator closure passed to `sort.Slice` in `AggregateAnchor`:
strict lexicographic (path, seq) order with Go string comparison on paths. -/
def lessb (a b : Receipt) : Bool :=
  if a.Path = b.Path then decide (a.Seq < b.Seq) else bytesLt a.Path b.Path

/-- The non-strict order that `sort.Slice`'s postcondition guarantees
between consecutive elements of its output: `¬ less(b, a)`. -/
def rle (a b : Receipt) : Prop := lessb b a = false

instance : DecidableRel rle := fun a b => by unfold rle; infer_instance

theorem bytesLt_asymm {x y : Bytes} (h : bytesLt x y = true) :
    bytesLt y x = false := by
  rcases Bool.eq_false_or_eq_true (bytesLt y x) with h2 | h2
  · have h3 := bytesLt_trans h h2
    rw [bytesLt_irrefl] at h3
    exact Bool.noConfusion h3
  · exact h2

theorem bytesLt_of_not {x y : Bytes} (h : bytesLt x y = false) (hne : x ≠ y) :
    bytesLt y x = true := by
  rcases Bool.eq_false_or_eq_true (bytesLt y x) with h2 | h2
  · exact h2
  · exact absurd (bytesLt_conn h h2) hne

instance : IsTotal Receipt rle := by
  constructor
  intro a b
  unfold rle lessb
  by_cases hp : b.Path = a.Path
  · rw [if_pos hp, if_pos hp.symm]
    simp only [decide_eq_false_iff_not]
    omega
  · rw [if_neg hp, if_neg (fun hc => hp hc.symm)]
    rcases Bool.eq_false_or_eq_true (bytesLt b.Path a.Path) with h | h
    · exact Or.inr (bytesLt_asymm h)
    · exact Or.inl h

instance : IsTrans Receipt rle := by
  constructor
  intro a b c hab hbc
  unfold rle lessb at hab hbc ⊢
  by_cases hba : b.Path = a.Path
  · rw [if_pos hba, decide_eq_false_iff_not] at hab
    by_cases hcb : c.Path = b.Path
    · rw [if_pos hcb, decide_eq_false_iff_not] at hbc
      rw [if_pos (hcb.trans hba), decide_eq_false_iff_not]
      omega
    · have hca : ¬ c.Path = a.Path := fun hc => hcb (hc.trans hba.symm)
      rw [if_neg hcb] at hbc
      rw [if_neg hca, ← hba]
      exact hbc
  · by_cases hcb : c.Path = b.Path
    · rw [if_neg hba] at hab
      have hca : ¬ c.Path = a.Path := fun hc => hba (hcb.symm.trans hc)
      rw [if_neg hca, hcb]
      exact hab
    · rw [if_neg hba] at hab
      rw [if_neg hcb] at hbc
      have h1 : bytesLt a.Path b.Path = true := bytesLt_of_not hab hba
      have h2 : bytesLt b.Path c.Path = true := bytesLt_of_not hbc hcb
      by_cases hca : c.Path = a.Path
      · exfalso
        have h3 := bytesLt_trans h1 h2
        rw [hca] at h3
        rw [bytesLt_irrefl] at h3
        exact Bool.noConfusion h3
      · rw [if_neg hca]
        rcases Bool.eq_false_or_eq_true (bytesLt c.Path a.Path) with h | h
        · exfalso
          have h3 := bytesLt_trans (bytesLt_trans h1 h2) h
          rw [bytesLt_irrefl] at h3
          exact Bool.noConfusion h3
        · exact h

/-- Distinctness of the (path, sequence) keys of two receipts. -/
def distinctKey (a b : Receipt) : Prop := ¬(a.Path = b.Path ∧ a.Seq = b.Seq)

instance : DecidableRel distinctKey := fun a b => by
  unfold distinctKey; infer_instance

theorem distinctKey_symm {a b : Receipt} (h : distinctKey a b) : distinctKey b a :=
  fun hc => h ⟨hc.1.symm, hc.2.symm⟩

theorem key_eq_of_rle_both {a b : Receipt} (h1 : rle a b) (h2 : rle b a) :
    a.Path = b.Path ∧ a.Seq = b.Seq := by
  unfold rle lessb at h1 h2
  by_cases hp : a.Path = b.Path
  · rw [if_pos hp.symm, decide_eq_false_iff_not] at h1
    rw [if_pos hp, decide_eq_false_iff_not] at h2
    exact ⟨hp, by omega⟩
  · rw [if_neg (fun hc => hp hc.symm)] at h1
    rw [if_neg hp] at h2
    exact absurd (bytesLt_conn h2 h1) hp

/-- Two permutation-equivalent lists, both sorted by the receipt order,
with pairwise-distinct (path, seq) keys, are equal. -/
theorem sorted_unique : ∀ {l1 l2 : List Receipt}, List.Perm l1 l2 →
    l1.Sorted rle → l2.Sorted rle → l1.Pairwise distinctKey → l1 = l2 := by
  intro l1
  induction l1 with
  | nil =>
    intro l2 hp _ _ _
    exact (List.Perm.eq_nil hp.symm).symm
  | cons a t1 ih =>
    intro l2 hp h1 h2 hd
    cases l2 with
    | nil => exact absurd (List.Perm.eq_nil hp) (by simp)
    | cons b t2 =>
      by_cases hab : a = b
      · subst hab
        have hp2 := hp.cons_inv
        rw [ih hp2 h1.of_cons h2.of_cons hd.of_cons]
      · have hbl1 : b ∈ t1 := by
          have hmem : b ∈ a :: t1 := hp.mem_iff.mpr (List.mem_cons_self b t2)
          rcases List.mem_cons.mp hmem with h | h
          · exact absurd h.symm hab
          · exact h
        have hal2 : a ∈ t2 := by
          have hmem : a ∈ b :: t2 := hp.mem_iff.mp (List.mem_cons_self a t1)
          rcases List.mem_cons.mp hmem with h | h
          · exact absurd h hab
          · exact h
        have hr1 : rle a b := List.rel_of_sorted_cons h1 b hbl1
        have hr2 : rle b a := List.rel_of_sorted_cons h2 a hal2
        have hdk : distinctKey a b := (List.pairwise_cons.mp hd).1 b hbl1
        exact absurd (key_eq_of_rle_both hr1 hr2) hdk

/-- The `sort.Slice` call in `AggregateAnchor`: its postcondition is a
permutation of the input ordered by the comparator, modelled by a sort with
respect to `rle`. -/
def sortReceipts (rs : List Receipt) : List Receipt := List.insertionSort rle rs

/-- `AggregateAnchor` from the source: empty input short-circuits to the
empty string; otherwise sort by (path, seq) and hex-encode the Merkle root
of the sorted receipts. -/
def AggregateAnchor (sha : HashFn) (rs : List Receipt) : String :=
  if rs.length = 0 then ""
  else hexEncode (MerkleRoot sha (sortReceipts rs))

/-- Claim C3: on inputs whose (path, seq) keys are pairwise distinct,
`AggregateAnchor` is invariant under permutation. -/
theorem anchor_perm_invariant_C3 (sha : HashFn) (rs rs2 : List Receipt)
    (hperm : List.Perm rs2 rs) (hnd : List.Pairwise distinctKey rs) :
    AggregateAnchor sha rs2 = AggregateAnchor sha rs := by
  have hpw : List.Pairwise distinctKey (sortReceipts rs2) := by
    have h12 : List.Perm (sortReceipts rs2) rs :=
      (List.perm_insertionSort rle rs2).trans hperm
    exact (h12.pairwise_iff (fun hab => distinctKey_symm hab)).mpr hnd
  have hsort : sortReceipts rs2 = sortReceipts rs := by
    apply sorted_unique
    · exact (List.perm_insertionSort rle rs2).trans
        (hperm.trans (List.perm_insertionSort rle rs).symm)
    · exact List.sorted_insertionSort rle rs2
    · exact List.sorted_insertionSort rle rs
    · exact hpw
  unfold AggregateAnchor
  rw [hsort, hperm.length_eq]

theorem anchor_perm_invariant_C3_witness :
    List.Perm [rB, rA] [rA, rB] ∧ List.Pairwise distinctKey [rA, rB] ∧
      AggregateAnchor shaZ [rB, rA] = AggregateAnchor shaZ [rA, rB] :=
  ⟨List.Perm.swap rA rB [], by decide,
    anchor_perm_invariant_C3 shaZ [rA, rB] [rB, rA] (List.Perm.swap rA rB [])
      (by decide)⟩

/-- Counterexample to claim C9: on the empty batch the source
short-circuits and returns the empty string, not the hex encoding of the
all-zero 32-byte root (which is 64 zero characters), even though
`MerkleRoot` of the empty list is indeed the all-zero root. -/
theorem anchor_empty_counterexample_C9 :
    AggregateAnchor shaZ [] = "" ∧
      hexEncode (MerkleRoot shaZ (sortReceipts [])) =
        "0000000000000000000000000000000000000000000000000000000000000000" ∧
      AggregateAnchor shaZ [] ≠ hexEncode (MerkleRoot shaZ (sortReceipts [])) :=
  ⟨rfl, by decide, by decide⟩

/-- Claim C9 (amended): for a nonempty batch, `AggregateAnchor` equals the
hex encoding of the Merkle root of the receipts sorted by (path, seq)
ascending; `MerkleRoot` of the empty list is the all-zero 32-byte root, but
`AggregateAnchor` of the empty batch short-circuits to the empty string. -/
theorem anchor_hex_root_C9_amended (sha : HashFn) (rs : List Receipt)
    (h : rs ≠ []) :
    AggregateAnchor sha rs = hexEncode (MerkleRoot sha (sortReceipts rs)) ∧
      AggregateAnchor sha [] = "" ∧
      MerkleRoot sha ([] : List Receipt) = List.replicate 32 0 := by
  refine ⟨?_, rfl, rfl⟩
  unfold AggregateAnchor
  rw [if_neg (fun hc => h (List.length_eq_zero.mp hc))]

theorem anchor_hex_root_C9_amended_witness :
    ([rA] : List Receipt) ≠ [] ∧
      (AggregateAnchor shaZ [rA] = hexEncode (MerkleRoot shaZ (sortReceipts [rA])) ∧
        AggregateAnchor shaZ [] = "" ∧
        MerkleRoot shaZ ([] : List Receipt) = List.replicate 32 0) :=
  ⟨by simp, anchor_hex_root_C9_amended shaZ [rA] (by simp)⟩

/-- `service.SegmentReceipt` from `internal/service/agent.go`: the raw
observation from the media layer. Times are UnixNano `Int`s; `Meta` is
auxiliary timing metadata unused by the aggregation logic. -/
structure SegmentReceipt where
  Path : List Nat
  Seq : Nat
  Size : Int
  Deadline : Int
  Recv : Int
  Commit : List Nat
  Meta : Int
deriving DecidableEq

/-- `streamStats` from the source: `Accepted`, `Late` and `Bytes` are Go
`int64` counters, `LastSeq` a `uint64`, `rolling` the 32-byte rolling
anchor, `recentCommits` the bounded ring of recent accepted commitments. -/
structure StreamStats where
  Accepted : Int
  Late : Int
  Bytes : Int
  LastSeq : Nat
  rolling : List Nat
  recentCommits : List (List Nat)
deriving DecidableEq

/-- The zero value `&streamStats{}`: zero counters, all-zero rolling hash,
empty ring. -/
def emptyStats : StreamStats :=
  { Accepted := 0, Late := 0, Bytes := 0, LastSeq := 0,
    rolling := List.replicate 32 0, recentCommits := [] }

/-- Go signed 64-bit wraparound: the result of two's-complement `int64`
arithmetic reduced into `[-2^63, 2^63)`. -/
def wrap64 (v : Int) : Int :=
  (v + 9223372036854775808) % 18446744073709551616 - 9223372036854775808

/-- The `Agent` struct (the logger and mutex are omitted: the model is the
state under the lock). The per-path map is a function to `Option`, `none`
standing for an absent key. -/
structure Agent where
  perPath : List Nat → Option StreamStats
  lastFlush : Int
  flushInterval : Int
  maxRecent : Nat

/-- `New` from the source (logger argument omitted): empty per-path map,
10-second flush interval, ring capacity 64. -/
def Agent.New : Agent :=
  { perPath := fun _ => none, lastFlush := 0,
    flushInterval := 10000000000, maxRecent := 64 }

/-- The on-time classification in `add`: `onTime := !r.Recv.After(r.Deadline)`. -/
def isOnTime (r : SegmentReceipt) : Bool := !(decide (r.Deadline < r.Recv))

/-- The rolling-anchor update in `add`:
`rolling = H(rolling || Commit || Seq || Size || Deadline || Recv)`, every
integer written big-endian through `putU64` (size and times via
`uint64(...)`). -/
def rollingUpdate (sha : HashFn) (st : StreamStats) (r : SegmentReceipt) :
    List Nat :=
  sha (st.rolling ++ r.Commit ++ putU64 r.Seq ++ putU64 (toU64 r.Size) ++
    putU64 (toU64 r.Deadline) ++ putU64 (toU64 r.Recv))

/-- The body of `Agent.add` acting on one path's stats (the code between
taking the lock and returning): track the highest sequence number, then for
an on-time observation bump the accepted counters, fold the rolling hash
and append to the ring (dropping the oldest past `maxRecent`); for a late
one bump the late counter only. -/
def stepStats (sha : HashFn) (max : Nat) (st : StreamStats)
    (r : SegmentReceipt) : StreamStats :=
  let st1 := if r.Seq > st.LastSeq then { st with LastSeq := r.Seq } else st
  if isOnTime r then
    { st1 with
      Accepted := wrap64 (st1.Accepted + 1),
      Bytes := wrap64 (st1.Bytes + r.Size),
      rolling := rollingUpdate sha st1 r,
      recentCommits :=
        let rc := st1.recentCommits ++ [r.Commit]
        if rc.length > max then rc.drop (rc.length - max) else rc }
  else { st1 with Late := wrap64 (st1.Late + 1) }

/-- The per-path stats view used by `add`: the map entry, or the fresh zero
stats when the path is absent (`st == nil` in the source). -/
def Agent.stats (a : Agent) (p : List Nat) : StreamStats :=
  (a.perPath p).getD emptyStats

/-- `Agent.add` from the source: read (or lazily create) the path's stats,
apply the update, store it back under the path's key. -/
def Agent.add (sha : HashFn) (a : Agent) (r : SegmentReceipt) : Agent :=
  { a with perPath := fun q =>
      if q = r.Path then some (stepStats sha a.maxRecent (a.stats r.Path) r)
      else a.perPath q }

/-- `AddReceipt` from the source: drops the observation when the package
singleton `defaultAgent` has never been initialised by `Start`. -/
def AddReceipt (sha : HashFn) (defaultAgent : Option Agent)
    (r : SegmentReceipt) : Option Agent :=
  match defaultAgent with
  | none => none
  | some a => some (a.add sha r)

/-- Recording a sequence of observations, one `add` at a time. -/
def runAdds (sha : HashFn) (a : Agent) (obs : List SegmentReceipt) : Agent :=
  obs.foldl (Agent.add sha) a

/-- The number of on-time observations in a sequence. -/
def onTimeCount (obs : List SegmentReceipt) : Nat := (obs.filter isOnTime).length

/-- The number of late observations in a sequence. -/
def lateCount (obs : List SegmentReceipt) : Nat :=
  (obs.filter (fun r => !isOnTime r)).length

/-- The byte total of the on-time observations only. -/
def onTimeBytes (obs : List SegmentReceipt) : Int :=
  ((obs.filter isOnTime).map (fun r => r.Size)).sum

/-- The commitments of the on-time observations, in arrival order. -/
def onTimeCommits (obs : List SegmentReceipt) : List (List Nat) :=
  (obs.filter isOnTime).map (fun r => r.Commit)

/-- The last `k` elements of a list (all of it if it is shorter). -/
def takeLast (k : Nat) (l : List (List Nat)) : List (List Nat) :=
  l.drop (l.length - k)

theorem wrap64_fix {x : Int} (h1 : -9223372036854775808 ≤ x)
    (h2 : x < 9223372036854775808) : wrap64 x = x := by
  unfold wrap64; omega

theorem wrap64_add_left (x y : Int) : wrap64 (wrap64 x + y) = wrap64 (x + y) := by
  unfold wrap64; omega

theorem wrap64_wrap64 (x : Int) : wrap64 (wrap64 x) = wrap64 x := by
  unfold wrap64; omega

theorem takeLast_of_le {k : Nat} {l : List (List Nat)} (h : l.length ≤ k) :
    takeLast k l = l := by
  unfold takeLast
  rw [Nat.sub_eq_zero_of_le h, List.drop_zero]

theorem takeLast_length_le (k : Nat) (l : List (List Nat)) :
    (takeLast k l).length ≤ k := by
  unfold takeLast
  rw [List.length_drop]
  omega

theorem takeLast_length_eq {k : Nat} {l : List (List Nat)} (h : k ≤ l.length) :
    (takeLast k l).length = k := by
  unfold takeLast
  rw [List.length_drop]
  omega

theorem takeLast_append_takeLast (k : Nat) (x y : List (List Nat)) :
    takeLast k (takeLast k x ++ y) = takeLast k (x ++ y) := by
  unfold takeLast
  by_cases h : x.length ≤ k
  · rw [Nat.sub_eq_zero_of_le h, List.drop_zero]
  · push_neg at h
    rw [← List.drop_append_of_le_length (by omega)]
    rw [List.drop_drop]
    congr 1
    simp only [List.length_drop, List.length_append]
    omega

theorem ring_step (rc : List (List Nat)) (c : List Nat) (max : Nat) :
    (if (rc ++ [c]).length > max then
        (rc ++ [c]).drop ((rc ++ [c]).length - max)
      else rc ++ [c]) = takeLast max (rc ++ [c]) := by
  unfold takeLast
  split
  · rfl
  · rename_i h
    push_neg at h
    rw [Nat.sub_eq_zero_of_le h, List.drop_zero]

theorem add_stats_eq (sha : HashFn) (a : Agent) (r : SegmentReceipt) :
    (a.add sha r).stats r.Path = stepStats sha a.maxRecent (a.stats r.Path) r := by
  unfold Agent.add Agent.stats
  simp

theorem add_maxRecent (sha : HashFn) (a : Agent) (r : SegmentReceipt) :
    (a.add sha r).maxRecent = a.maxRecent := rfl

theorem stepStats_accepted (sha : HashFn) (max : Nat) (st : StreamStats)
    (r : SegmentReceipt) :
    (stepStats sha max st r).Accepted =
      if isOnTime r then wrap64 (st.Accepted + 1) else st.Accepted := by
  unfold stepStats
  by_cases h : isOnTime r <;> by_cases h2 : r.Seq > st.LastSeq <;> simp [h, h2]

theorem stepStats_late (sha : HashFn) (max : Nat) (st : StreamStats)
    (r : SegmentReceipt) :
    (stepStats sha max st r).Late =
      if isOnTime r then st.Late else wrap64 (st.Late + 1) := by
  unfold stepStats
  by_cases h : isOnTime r <;> by_cases h2 : r.Seq > st.LastSeq <;> simp [h, h2]

theorem stepStats_bytes (sha : HashFn) (max : Nat) (st : StreamStats)
    (r : SegmentReceipt) :
    (stepStats sha max st r).Bytes =
      if isOnTime r then wrap64 (st.Bytes + r.Size) else st.Bytes := by
  unfold stepStats
  by_cases h : isOnTime r <;> by_cases h2 : r.Seq > st.LastSeq <;> simp [h, h2]

theorem stepStats_rc (sha : HashFn) (max : Nat) (st : StreamStats)
    (r : SegmentReceipt) :
    (stepStats sha max st r).recentCommits =
      if isOnTime r then takeLast max (st.recentCommits ++ [r.Commit])
      else st.recentCommits := by
  unfold stepStats
  by_cases h : isOnTime r <;> by_cases h2 : r.Seq > st.LastSeq <;>
    simp [h, h2, ← ring_step]

theorem onTimeCount_cons (o : SegmentReceipt) (rest : List SegmentReceipt) :
    onTimeCount (o :: rest) =
      (if isOnTime o then 1 else 0) + onTimeCount rest := by
  unfold onTimeCount
  by_cases h : isOnTime o <;> simp [List.filter_cons, h] <;> omega

theorem lateCount_cons (o : SegmentReceipt) (rest : List SegmentReceipt) :
    lateCount (o :: rest) = (if isOnTime o then 0 else 1) + lateCount rest := by
  unfold lateCount
  by_cases h : isOnTime o <;> simp [List.filter_cons, h] <;> omega

theorem onTimeBytes_cons (o : SegmentReceipt) (rest : List SegmentReceipt) :
    onTimeBytes (o :: rest) =
      (if isOnTime o then o.Size else 0) + onTimeBytes rest := by
  unfold onTimeBytes
  by_cases h : isOnTime o <;> simp [List.filter_cons, h]

theorem onTimeCommits_cons (o : SegmentReceipt) (rest : List SegmentReceipt) :
    onTimeCommits (o :: rest) =
      (if isOnTime o then [o.Commit] else []) ++ onTimeCommits rest := by
  unfold onTimeCommits
  by_cases h : isOnTime o <;> simp [List.filter_cons, h]

theorem onTimeCommits_length (obs : List SegmentReceipt) :
    (onTimeCommits obs).length = onTimeCount obs := by
  unfold onTimeCommits onTimeCount
  rw [List.length_map]


/-- The cumulative effect of recording a path-homogeneous observation
sequence: counters advance by the on-time/late tallies (as wrapping
`int64`s), and the ring holds the last `maxRecent` accepted commitments.
The hypotheses say the starting stats are themselves in `int64` range and
the starting ring within capacity. -/
theorem runAdds_stats (sha : HashFn) (p : List Nat) :
    ∀ (obs : List SegmentReceipt) (a : Agent), (∀ r ∈ obs, r.Path = p) →
      wrap64 (a.stats p).Accepted = (a.stats p).Accepted →
      wrap64 (a.stats p).Late = (a.stats p).Late →
      wrap64 (a.stats p).Bytes = (a.stats p).Bytes →
      (a.stats p).recentCommits.length ≤ a.maxRecent →
      ((runAdds sha a obs).stats p).Accepted
          = wrap64 ((a.stats p).Accepted + (onTimeCount obs : Int)) ∧
      ((runAdds sha a obs).stats p).Late
          = wrap64 ((a.stats p).Late + (lateCount obs : Int)) ∧
      ((runAdds sha a obs).stats p).Bytes
          = wrap64 ((a.stats p).Bytes + onTimeBytes obs) ∧
      ((runAdds sha a obs).stats p).recentCommits
          = takeLast a.maxRecent ((a.stats p).recentCommits ++ onTimeCommits obs) ∧
      (runAdds sha a obs).maxRecent = a.maxRecent := by
  intro obs
  induction obs with
  | nil =>
    intro a hp hA hL hB hrc
    refine ⟨?_, ?_, ?_, ?_, rfl⟩
    · show (a.stats p).Accepted = wrap64 ((a.stats p).Accepted + (onTimeCount [] : Int))
      rw [show (onTimeCount [] : Int) = 0 from rfl, add_zero]
      exact hA.symm
    · show (a.stats p).Late = wrap64 ((a.stats p).Late + (lateCount [] : Int))
      rw [show (lateCount [] : Int) = 0 from rfl, add_zero]
      exact hL.symm
    · show (a.stats p).Bytes = wrap64 ((a.stats p).Bytes + onTimeBytes [])
      rw [show onTimeBytes [] = 0 from rfl, add_zero]
      exact hB.symm
    · show (a.stats p).recentCommits
        = takeLast a.maxRecent ((a.stats p).recentCommits ++ onTimeCommits [])
      rw [show onTimeCommits [] = [] from rfl, List.append_nil]
      exact (takeLast_of_le hrc).symm
  | cons o rest ih =>
    intro a hp hA hL hB hrc
    have hop : o.Path = p := hp o (List.mem_cons_self o rest)
    have hrest : ∀ r ∈ rest, r.Path = p := fun r hr => hp r (List.mem_cons_of_mem o hr)
    have hrun : runAdds sha a (o :: rest) = runAdds sha (a.add sha o) rest := rfl
    have hst : (a.add sha o).stats p = stepStats sha a.maxRecent (a.stats p) o := by
      rw [← hop]
      exact add_stats_eq sha a o
    have hmax : (a.add sha o).maxRecent = a.maxRecent := rfl
    have hA2 : wrap64 ((a.add sha o).stats p).Accepted
        = ((a.add sha o).stats p).Accepted := by
      rw [hst, stepStats_accepted]
      by_cases h : isOnTime o
      · rw [if_pos h, wrap64_wrap64]
      · rw [if_neg h]
        exact hA
    have hL2 : wrap64 ((a.add sha o).stats p).Late = ((a.add sha o).stats p).Late := by
      rw [hst, stepStats_late]
      by_cases h : isOnTime o
      · rw [if_pos h]
        exact hL
      · rw [if_neg h, wrap64_wrap64]
    have hB2 : wrap64 ((a.add sha o).stats p).Bytes = ((a.add sha o).stats p).Bytes := by
      rw [hst, stepStats_bytes]
      by_cases h : isOnTime o
      · rw [if_pos h, wrap64_wrap64]
      · rw [if_neg h]
        exact hB
    have hrc2 : ((a.add sha o).stats p).recentCommits.length ≤ (a.add sha o).maxRecent := by
      rw [hst, hmax, stepStats_rc]
      by_cases h : isOnTime o
      · rw [if_pos h]
        exact takeLast_length_le _ _
      · rw [if_neg h]
        exact hrc
    obtain ⟨e1, e2, e3, e4, e5⟩ := ih (a.add sha o) hrest hA2 hL2 hB2 hrc2
    rw [hrun]
    refine ⟨?_, ?_, ?_, ?_, by rw [e5, hmax]⟩
    · rw [e1, hst, stepStats_accepted, onTimeCount_cons]
      by_cases h : isOnTime o
      · rw [if_pos h, if_pos h, wrap64_add_left]
        congr 1
        omega
      · rw [if_neg h, if_neg h]
        congr 1
        omega
    · rw [e2, hst, stepStats_late, lateCount_cons]
      by_cases h : isOnTime o
      · rw [if_pos h, if_pos h]
        congr 1
        omega
      · rw [if_neg h, if_neg h, wrap64_add_left]
        congr 1
        omega
    · rw [e3, hst, stepStats_bytes, onTimeBytes_cons]
      by_cases h : isOnTime o
      · rw [if_pos h, if_pos h, wrap64_add_left]
        congr 1
        omega
      · rw [if_neg h, if_neg h]
        congr 1
        omega
    · rw [e4, hst, hmax, stepStats_rc, onTimeCommits_cons]
      by_cases h : isOnTime o
      · rw [if_pos h, if_pos h, takeLast_append_takeLast]
        congr 1
        rw [List.append_assoc]
      · rw [if_neg h, if_neg h]
        congr 1

/-- Claim C6: recording a sequence of observations for one path from a
fresh aggregator yields `Accepted` = number of on-time observations,
`Late` = number of late observations, and `Bytes` = sum of the sizes of the
on-time observations only. The count/sum bounds are the `int64` ranges the
Go counters impose. -/
theorem qos_counters_C6 (sha : HashFn) (p : List Nat)
    (obs : List SegmentReceipt) (hp : ∀ r ∈ obs, r.Path = p)
    (hA : (onTimeCount obs : Int) < 9223372036854775808)
    (hL : (lateCount obs : Int) < 9223372036854775808)
    (hB1 : -9223372036854775808 ≤ onTimeBytes obs)
    (hB2 : onTimeBytes obs < 9223372036854775808) :
    ((runAdds sha Agent.New obs).stats p).Accepted = onTimeCount obs ∧
      ((runAdds sha Agent.New obs).stats p).Late = lateCount obs ∧
      ((runAdds sha Agent.New obs).stats p).Bytes = onTimeBytes obs := by
  have hnew : Agent.New.stats p = emptyStats := rfl
  obtain ⟨e1, e2, e3, -, -⟩ := runAdds_stats sha p obs Agent.New hp
    (by rw [hnew]; decide) (by rw [hnew]; decide) (by rw [hnew]; decide)
    (by rw [hnew]; decide)
  refine ⟨?_, ?_, ?_⟩
  · rw [e1, hnew, show emptyStats.Accepted = (0 : Int) from rfl, zero_add]
    exact wrap64_fix (by omega) hA
  · rw [e2, hnew, show emptyStats.Late = (0 : Int) from rfl, zero_add]
    exact wrap64_fix (by omega) hL
  · rw [e3, hnew, show emptyStats.Bytes = (0 : Int) from rfl, zero_add]
    exact wrap64_fix hB1 hB2

/-- An on-time witness observation (`Recv = Deadline`). -/
def sOn : SegmentReceipt :=
  { Path := [112], Seq := 1, Size := 100, Deadline := 10, Recv := 10,
    Commit := List.replicate 32 1, Meta := 0 }

/-- A late witness observation (`Recv = Deadline + 1`). -/
def sLate : SegmentReceipt :=
  { Path := [112], Seq := 2, Size := 50, Deadline := 10, Recv := 11,
    Commit := List.replicate 32 2, Meta := 0 }

theorem qos_counters_C6_witness :
    (∀ r ∈ [sOn, sLate], r.Path = [112]) ∧
      (onTimeCount [sOn, sLate] : Int) < 9223372036854775808 ∧
      (lateCount [sOn, sLate] : Int) < 9223372036854775808 ∧
      -9223372036854775808 ≤ onTimeBytes [sOn, sLate] ∧
      onTimeBytes [sOn, sLate] < 9223372036854775808 ∧
      (((runAdds shaZ Agent.New [sOn, sLate]).stats [112]).Accepted
          = onTimeCount [sOn, sLate] ∧
        ((runAdds shaZ Agent.New [sOn, sLate]).stats [112]).Late
          = lateCount [sOn, sLate] ∧
        ((runAdds shaZ Agent.New [sOn, sLate]).stats [112]).Bytes
          = onTimeBytes [sOn, sLate]) :=
  ⟨by decide, by decide, by decide, by decide, by decide,
    qos_counters_C6 shaZ [112] [sOn, sLate] (by decide) (by decide) (by decide)
      (by decide) (by decide)⟩

/-- Claim C7: the classification boundary. An observation with
`Recv = Deadline` is on-time (the accepted counter is incremented, the late
counter untouched); one with `Recv = Deadline + 1` nanosecond is late (the
late counter is incremented, the accepted counter untouched). -/
theorem boundary_classification_C7 (sha : HashFn) (a : Agent)
    (r1 r2 : SegmentReceipt)
    (h1 : r1.Recv = r1.Deadline) (h2 : r2.Recv = r2.Deadline + 1) :
    ((a.add sha r1).stats r1.Path).Accepted
        = wrap64 ((a.stats r1.Path).Accepted + 1) ∧
      ((a.add sha r1).stats r1.Path).Late = (a.stats r1.Path).Late ∧
      ((a.add sha r2).stats r2.Path).Late
        = wrap64 ((a.stats r2.Path).Late + 1) ∧
      ((a.add sha r2).stats r2.Path).Accepted = (a.stats r2.Path).Accepted := by
  have ho1 : isOnTime r1 = true := by
    unfold isOnTime
    simp only [Bool.not_eq_true', decide_eq_false_iff_not]
    omega
  have ho2 : isOnTime r2 = false := by
    unfold isOnTime
    simp only [Bool.not_eq_false', decide_eq_true_eq]
    omega
  refine ⟨?_, ?_, ?_, ?_⟩
  · rw [add_stats_eq, stepStats_accepted]
    simp [ho1]
  · rw [add_stats_eq, stepStats_late]
    simp [ho1]
  · rw [add_stats_eq, stepStats_late]
    simp [ho2]
  · rw [add_stats_eq, stepStats_accepted]
    simp [ho2]

theorem boundary_classification_C7_witness :
    sOn.Recv = sOn.Deadline ∧ sLate.Recv = sLate.Deadline + 1 ∧
      (((Agent.New.add shaZ sOn).stats sOn.Path).Accepted
          = wrap64 ((Agent.New.stats sOn.Path).Accepted + 1) ∧
        ((Agent.New.add shaZ sOn).stats sOn.Path).Late
          = (Agent.New.stats sOn.Path).Late ∧
        ((Agent.New.add shaZ sLate).stats sLate.Path).Late
          = wrap64 ((Agent.New.stats sLate.Path).Late + 1) ∧
        ((Agent.New.add shaZ sLate).stats sLate.Path).Accepted
          = (Agent.New.stats sLate.Path).Accepted) :=
  ⟨by decide, by decide,
    boundary_classification_C7 shaZ Agent.New sOn sLate (by decide) (by decide)⟩

/-- The 65-observation run used as the C8 witness. -/
def obs65 : List SegmentReceipt := List.replicate 65 sOn

/-- Claim C8: after every recorded observation of a path-homogeneous run
from a fresh aggregator the per-path ring holds at most 64 (the configured
default capacity) commitments, and once more than 64 on-time observations
have been recorded it holds exactly the most recent 64 accepted
commitments in arrival order. -/
theorem recent_ring_C8 (sha : HashFn) (p : List Nat)
    (obs : List SegmentReceipt) (hp : ∀ r ∈ obs, r.Path = p) :
    (∀ n : Nat,
        ((runAdds sha Agent.New (obs.take n)).stats p).recentCommits.length ≤ 64) ∧
      (64 < onTimeCount obs →
        ((runAdds sha Agent.New obs).stats p).recentCommits
            = takeLast 64 (onTimeCommits obs) ∧
          ((runAdds sha Agent.New obs).stats p).recentCommits.length = 64) := by
  have hnew : Agent.New.stats p = emptyStats := rfl
  constructor
  · intro n
    have hpn : ∀ r ∈ obs.take n, r.Path = p :=
      fun r hr => hp r (List.mem_of_mem_take hr)
    obtain ⟨-, -, -, e4, -⟩ := runAdds_stats sha p (obs.take n) Agent.New hpn
      (by rw [hnew]; decide) (by rw [hnew]; decide) (by rw [hnew]; decide)
      (by rw [hnew]; decide)
    rw [e4]
    exact takeLast_length_le _ _
  · intro hcnt
    obtain ⟨-, -, -, e4, -⟩ := runAdds_stats sha p obs Agent.New hp
      (by rw [hnew]; decide) (by rw [hnew]; decide) (by rw [hnew]; decide)
      (by rw [hnew]; decide)
    rw [e4, hnew, show emptyStats.recentCommits = [] from rfl, List.nil_append,
      show Agent.New.maxRecent = 64 from rfl]
    refine ⟨rfl, ?_⟩
    exact takeLast_length_eq (by rw [onTimeCommits_length]; omega)

theorem recent_ring_C8_witness :
    (∀ r ∈ obs65, r.Path = [112]) ∧ 64 < onTimeCount obs65 ∧
      ((∀ n : Nat,
          ((runAdds shaZ Agent.New (obs65.take n)).stats [112]).recentCommits.length
            ≤ 64) ∧
        (64 < onTimeCount obs65 →
          ((runAdds shaZ Agent.New obs65).stats [112]).recentCommits
              = takeLast 64 (onTimeCommits obs65) ∧
            ((runAdds shaZ Agent.New obs65).stats [112]).recentCommits.length = 64)) :=
  ⟨by decide, by decide, recent_ring_C8 shaZ [112] obs65 (by decide)⟩

/-- Claim C10: when the package singleton has never been initialised by
`Start` (`defaultAgent == nil`), `AddReceipt` silently discards the
observation: it returns normally and the (absent) aggregator state is
unchanged. -/
theorem addreceipt_nil_noop_C10 (sha : HashFn) (r : SegmentReceipt) :
    AddReceipt sha none r = none := rfl

end SlowDrip
